import Mathlib

/-!
Verification of the diff/patch/merge core of `hero_info.rs`
(darkest_dungeon_mod_bundler).

The embedding below translates the Rust source into Lean:
* `GameDataValue`, `ItemChange`, `Path` mirror the value/edit vocabulary of
  the `diff` module.  The `f32` payload is carried as an uninterpreted bit
  pattern (`Nat`): the functions under study only store and compare floats,
  they never do arithmetic on them.
* `Patch`, `Conflicts`, `DataMap` are the ordered maps of the `diff` module
  (Rust `BTreeMap`s); they are embedded as association lists with
  overwrite-on-insert semantics, which preserves the "each path occurs at
  most once" invariant the spec states.  Rust `HashMap`s used for regrouping
  are embedded the same way; their iteration order is unspecified in Rust
  and is modelled as first-insertion order (all proved statements that do
  not pin a concrete input are insensitive to this order).
* Panics (`unwrap`, `panic`-style aborts) are embedded as `Except String`
  errors, and the possibly endless chain-reconstruction loop is embedded
  with explicit fuel.
-/

namespace DDMB

/-- The scalar values of the dataset (`GameDataValue` in the source).
The `f32` payload is an uninterpreted bit pattern. -/
inductive GameDataValue where
  | string (s : String)
  | i32 (n : Int)
  | f32 (bits : Nat)
  | unit
deriving DecidableEq

/-- One edit: set to a value, or remove (`ItemChange` in the source). -/
inductive ItemChange where
  | set (v : GameDataValue)
  | removed
deriving DecidableEq

/-- A structural path: ordered string segments (`Vec<String>` keys). -/
abbrev Path := List String

/-- A mod (source) identifier. -/
abbrev ModName := String

/-- Generic lookup in an association list, first match wins
(embeds `BTreeMap::get` / `HashMap::get`). -/
def mapGet {α β : Type} [DecidableEq α] (m : List (α × β)) (k : α) : Option β :=
  match m with
  | [] => none
  | e :: rest => if e.1 = k then some e.2 else mapGet rest k

/-- Generic insert with overwrite (embeds `BTreeMap::insert`). -/
def mapInsert {α β : Type} [DecidableEq α] (k : α) (v : β) (m : List (α × β)) :
    List (α × β) :=
  match m with
  | [] => [(k, v)]
  | e :: rest => if e.1 = k then (k, v) :: rest else e :: mapInsert k v rest

/-- Embeds `map.entry(k).or_insert(vec![]).push(v)`. -/
def mapPush {α β : Type} [DecidableEq α] (k : α) (v : β) (m : List (α × List β)) :
    List (α × List β) :=
  match m with
  | [] => [(k, [v])]
  | e :: rest => if e.1 = k then (e.1, e.2 ++ [v]) :: rest else e :: mapPush k v rest

/-- Embeds `map.entry(k).or_insert(vec![]).extend(vs)`. -/
def mapPushMany {α β : Type} [DecidableEq α] (k : α) (vs : List β)
    (m : List (α × List β)) : List (α × List β) :=
  match m with
  | [] => [(k, vs)]
  | e :: rest =>
      if e.1 = k then (e.1, e.2 ++ vs) :: rest else e :: mapPushMany k vs rest

/-- A sparse patch: path-keyed edits (`Patch = BTreeMap<Vec<String>, ItemChange>`). -/
abbrev Patch := List (Path × ItemChange)

/-- One path's contending (source, change) pairs. -/
abbrev Group := List (ModName × ItemChange)

/-- The conflict set (`Conflicts = BTreeMap<Vec<String>, Vec<(String, ItemChange)>>`). -/
abbrev Conflicts := List (Path × Group)

/-- One source's raw change-set (`ModFileChange`). -/
abbrev ModFileChange := ModName × List (Path × ItemChange)

/-- A flattened record (`DataMap = BTreeMap<Vec<String>, GameDataValue>`). -/
abbrev DataMap := List (Path × GameDataValue)

theorem mapGet_mapInsert_self {α β : Type} [DecidableEq α] (k : α) (v : β)
    (m : List (α × β)) : mapGet (mapInsert k v m) k = some v := by
  induction m with
  | nil => simp [mapInsert, mapGet]
  | cons e rest ih =>
      by_cases h : e.1 = k
      · simp [mapInsert, h, mapGet]
      · simp [mapInsert, h, mapGet, ih]

theorem mapGet_mapInsert_ne {α β : Type} [DecidableEq α] (k p : α) (v : β)
    (m : List (α × β)) (h : k ≠ p) :
    mapGet (mapInsert k v m) p = mapGet m p := by
  induction m with
  | nil => simp [mapInsert, mapGet, h]
  | cons e rest ih =>
      by_cases he : e.1 = k
      · simp [mapInsert, he, mapGet, h]
      · simp [mapInsert, he, mapGet, ih]

theorem mapGet_mapPush_self {α β : Type} [DecidableEq α] (k : α) (v : β)
    (m : List (α × List β)) :
    mapGet (mapPush k v m) k = some ((mapGet m k).getD [] ++ [v]) := by
  induction m with
  | nil => simp [mapPush, mapGet]
  | cons e rest ih =>
      by_cases h : e.1 = k
      · simp [mapPush, h, mapGet]
      · simp [mapPush, h, mapGet, ih]

theorem mapGet_mapPush_ne {α β : Type} [DecidableEq α] (k p : α) (v : β)
    (m : List (α × List β)) (h : k ≠ p) :
    mapGet (mapPush k v m) p = mapGet m p := by
  induction m with
  | nil => simp [mapPush, mapGet, h]
  | cons e rest ih =>
      by_cases he : e.1 = k
      · subst he
        simp [mapPush, mapGet, h]
      · simp [mapPush, he, mapGet, ih]

theorem mapGet_mapPushMany_self {α β : Type} [DecidableEq α] (k : α) (vs : List β)
    (m : List (α × List β)) :
    mapGet (mapPushMany k vs m) k = some ((mapGet m k).getD [] ++ vs) := by
  induction m with
  | nil => simp [mapPushMany, mapGet]
  | cons e rest ih =>
      by_cases h : e.1 = k
      · simp [mapPushMany, h, mapGet]
      · simp [mapPushMany, h, mapGet, ih]

theorem mapGet_mapPushMany_ne {α β : Type} [DecidableEq α] (k p : α) (vs : List β)
    (m : List (α × List β)) (h : k ≠ p) :
    mapGet (mapPushMany k vs m) p = mapGet m p := by
  induction m with
  | nil => simp [mapPushMany, mapGet, h]
  | cons e rest ih =>
      by_cases he : e.1 = k
      · subst he
        simp [mapPushMany, mapGet, h]
      · simp [mapPushMany, he, mapGet, ih]

theorem mem_mapInsert {α β : Type} [DecidableEq α] {k : α} {v : β}
    {m : List (α × β)} {e : α × β} (h : e ∈ mapInsert k v m) :
    e = (k, v) ∨ e ∈ m := by
  induction m with
  | nil => simpa [mapInsert] using h
  | cons f rest ih =>
      by_cases hf : f.1 = k
      · simp only [mapInsert, hf, if_pos rfl] at h
        rcases List.mem_cons.mp h with h | h
        · exact Or.inl h
        · exact Or.inr (List.mem_cons_of_mem _ h)
      · simp only [mapInsert, hf, if_neg hf] at h
        rcases List.mem_cons.mp h with h | h
        · exact Or.inr (by simp [h])
        · rcases ih h with h | h
          · exact Or.inl h
          · exact Or.inr (List.mem_cons_of_mem _ h)

theorem mem_mapPush {α β : Type} [DecidableEq α] {k : α} {v : β}
    {m : List (α × List β)} {e : α × List β} (h : e ∈ mapPush k v m) :
    e.1 = k ∨ e ∈ m := by
  induction m with
  | nil =>
      simp [mapPush] at h
      simp [h]
  | cons f rest ih =>
      by_cases hf : f.1 = k
      · simp only [mapPush, hf, if_pos rfl] at h
        rcases List.mem_cons.mp h with h | h
        · subst h; exact Or.inl rfl
        · exact Or.inr (List.mem_cons_of_mem _ h)
      · simp only [mapPush, hf, if_neg hf] at h
        rcases List.mem_cons.mp h with h | h
        · exact Or.inr (by simp [h])
        · rcases ih h with h | h
          · exact Or.inl h
          · exact Or.inr (List.mem_cons_of_mem _ h)

theorem mem_mapPushMany {α β : Type} [DecidableEq α] {k : α} {vs : List β}
    {m : List (α × List β)} {e : α × List β} (h : e ∈ mapPushMany k vs m) :
    e.1 = k ∨ e ∈ m := by
  induction m with
  | nil =>
      simp [mapPushMany] at h
      simp [h]
  | cons f rest ih =>
      by_cases hf : f.1 = k
      · simp only [mapPushMany, hf, if_pos rfl] at h
        rcases List.mem_cons.mp h with h | h
        · subst h; exact Or.inl rfl
        · exact Or.inr (List.mem_cons_of_mem _ h)
      · simp only [mapPushMany, hf, if_neg hf] at h
        rcases List.mem_cons.mp h with h | h
        · exact Or.inr (by simp [h])
        · rcases ih h with h | h
          · exact Or.inl h
          · exact Or.inr (List.mem_cons_of_mem _ h)

theorem mapInsert_ne_nil {α β : Type} [DecidableEq α] (k : α) (v : β)
    (m : List (α × β)) : mapInsert k v m ≠ [] := by
  cases m with
  | nil => simp [mapInsert]
  | cons e rest =>
      by_cases h : e.1 = k <;> simp [mapInsert, h]

theorem mem_keys_mapPush {α β : Type} [DecidableEq α] {k p : α} {v : β}
    {m : List (α × List β)} :
    p ∈ (mapPush k v m).map Prod.fst ↔ p = k ∨ p ∈ m.map Prod.fst := by
  induction m with
  | nil => simp [mapPush]
  | cons e rest ih =>
      by_cases h : e.1 = k
      · subst h
        simp [mapPush] <;> tauto
      · simp [mapPush, h, ih] <;> tauto

theorem mem_keys_mapPushMany {α β : Type} [DecidableEq α] {k p : α} {vs : List β}
    {m : List (α × List β)} :
    p ∈ (mapPushMany k vs m).map Prod.fst ↔ p = k ∨ p ∈ m.map Prod.fst := by
  induction m with
  | nil => simp [mapPushMany]
  | cons e rest ih =>
      by_cases h : e.1 = k
      · subst h
        simp [mapPushMany] <;> tauto
      · simp [mapPushMany, h, ih] <;> tauto

theorem nodup_keys_mapPush {α β : Type} [DecidableEq α] (k : α) (v : β)
    (m : List (α × List β)) (h : (m.map Prod.fst).Nodup) :
    ((mapPush k v m).map Prod.fst).Nodup := by
  induction m with
  | nil => simp [mapPush]
  | cons e rest ih =>
      by_cases he : e.1 = k
      · simpa [mapPush, he] using h
      · rw [List.map_cons, List.nodup_cons] at h
        simp only [mapPush, if_neg he, List.map_cons]
        refine List.nodup_cons.mpr ⟨?_, ih h.2⟩
        intro hmem
        rcases mem_keys_mapPush.mp hmem with h1 | h1
        · exact he h1
        · exact h.1 h1

theorem nodup_keys_mapPushMany {α β : Type} [DecidableEq α] (k : α) (vs : List β)
    (m : List (α × List β)) (h : (m.map Prod.fst).Nodup) :
    ((mapPushMany k vs m).map Prod.fst).Nodup := by
  induction m with
  | nil => simp [mapPushMany]
  | cons e rest ih =>
      by_cases he : e.1 = k
      · simpa [mapPushMany, he] using h
      · rw [List.map_cons, List.nodup_cons] at h
        simp only [mapPushMany, if_neg he, List.map_cons]
        refine List.nodup_cons.mpr ⟨?_, ih h.2⟩
        intro hmem
        rcases mem_keys_mapPushMany.mp hmem with h1 | h1
        · exact he h1
        · exact h.1 h1

/-- Lookup `mapGet` misses exactly the keys not in the list. -/
theorem mapGet_eq_none_iff {α β : Type} [DecidableEq α] (m : List (α × β)) (k : α) :
    mapGet m k = none ↔ k ∉ m.map Prod.fst := by
  induction m with
  | nil => simp [mapGet]
  | cons e rest ih =>
      by_cases h : e.1 = k
      · simp [mapGet, h]
      · simp [mapGet, h, ih, Ne.symm h]

theorem mapGet_mem {α β : Type} [DecidableEq α] {m : List (α × β)} {k : α} {v : β}
    (h : mapGet m k = some v) : (k, v) ∈ m := by
  induction m with
  | nil => simp [mapGet] at h
  | cons e rest ih =>
      by_cases he : e.1 = k
      · simp only [mapGet, if_pos he] at h
        cases h
        obtain ⟨a, b⟩ := e
        simp only at he
        subst he
        exact List.mem_cons_self _ _
      · simp only [mapGet, if_neg he] at h
        exact List.mem_cons_of_mem _ (ih h)

/-- With distinct keys, membership determines `mapGet`. -/
theorem mapGet_of_mem_nodup {α β : Type} [DecidableEq α] {m : List (α × β)}
    {e : α × β} (hnd : (m.map Prod.fst).Nodup) (h : e ∈ m) :
    mapGet m e.1 = some e.2 := by
  induction m with
  | nil => simp at h
  | cons f rest ih =>
      rcases List.mem_cons.mp h with h | h
      · subst h
        simp [mapGet]
      · have hne : f.1 ≠ e.1 := by
          intro hcontra
          have : e.1 ∈ rest.map Prod.fst := List.mem_map_of_mem Prod.fst h
          rw [← hcontra] at this
          exact (List.nodup_cons.mp hnd).1 this
        simp only [mapGet, if_neg hne]
        exact ih (List.nodup_cons.mp hnd).2 h

/-! ## Chain reconstruction (`next_effect`, `patch_skill_effects`) -/

/-- A skill: its ordered effect chain plus the remaining scalar fields
(`struct Skill` in the source; `other` is the `HashMap<String, String>`). -/
structure Skill where
  effects : List String
  other : List (String × String)
deriving DecidableEq

/-- Embeds `next_effect`: the successor of `prev` in the chain, either
overridden by a patch entry keyed by `prev` under `pre`, or taken from the
element following `prev` in the original list.  `ok none` = chain ends,
`error` = the source's panic on a non-string `set`. -/
def nextEffect (prev : String) (origEffects : List String) (patch : Patch)
    (pre : Path) : Except String (Option String) :=
  match mapGet patch (pre ++ [prev]) with
  | some ItemChange.removed => Except.ok none
  | some (ItemChange.set (GameDataValue.string effect)) => Except.ok (some effect)
  | some (ItemChange.set _) => Except.error "Skill effects can only be strings"
  | none =>
      Except.ok ((origEffects.findIdx? (fun eff => eff == prev)).bind
        (fun index => origEffects.get? (index + 1)))

/-- Outcome of the chain-reconstruction loop: normal completion, a panic,
or fuel exhaustion (the Rust loop has no bound and can run forever). -/
inductive WalkOut where
  | done (effects : List String)
  | aborted (msg : String)
  | fuelOut (acc : List String) (cur : String)
deriving DecidableEq

def WalkOut.isDone : WalkOut → Bool
  | .done _ => true
  | _ => false

/-- The `while let Some(next) = next_effect(..)` loop of `patch_skill_effects`,
with explicit fuel.  `acc` is the `effects` vector built so far. -/
def chainWalk (origEffects : List String) (patch : Patch) (pre : Path) :
    Nat → String → List String → WalkOut
  | 0, cur, acc => WalkOut.fuelOut acc cur
  | Nat.succ fuel, cur, acc =>
      match nextEffect cur origEffects patch pre with
      | Except.error e => WalkOut.aborted e
      | Except.ok none => WalkOut.done acc
      | Except.ok (some nxt) => chainWalk origEffects patch pre fuel nxt (acc ++ [nxt])

/-- Embeds `patch_skill_effects`: determine the chain start (patched start
marker, else original head), then walk successors.  `done l` carries the
skill's new effect list. -/
def patchSkillEffectsFuel (fuel : Nat) (skill : Skill) (patch : Patch)
    (pre0 : Path) : WalkOut :=
  match mapGet patch (pre0 ++ ["effect"]) with
  | some ItemChange.removed => WalkOut.done []
  | some (ItemChange.set (GameDataValue.string effect)) =>
      chainWalk skill.effects patch (pre0 ++ ["effect"]) fuel effect [effect]
  | some (ItemChange.set _) => WalkOut.aborted "Skill effects can only be strings"
  | none =>
      match skill.effects.get? 0 with
      | some cur => chainWalk skill.effects patch (pre0 ++ ["effect"]) fuel cur [cur]
      | none => WalkOut.done skill.effects

/-- Predicate: `patch_skill_effects` terminates normally on this input for some fuel. -/
def patchSkillEffectsHalts (skill : Skill) (patch : Patch) (pre0 : Path) : Prop :=
  ∃ fuel out, patchSkillEffectsFuel fuel skill patch pre0 = WalkOut.done out

/-- The patch of the spec's first chain example: successor-of "A" becomes
"X", successor-of "X" is removed (end of chain). -/
def c4patch1 : Patch :=
  [(["effect", "A"], ItemChange.set (GameDataValue.string "X")),
   (["effect", "X"], ItemChange.removed)]

/-- The patch of the spec's second chain example: the start marker is removed. -/
def c4patch2 : Patch := [(["effect"], ItemChange.removed)]

/-- C4: chain reconstruction matches the spec's two examples: baseline
`["A","B","C"]` with successor-of("A") = "X" and successor-of("X") removed
yields `["A","X"]` (for every sufficient fuel), and baseline `["A","B"]`
with the start marker removed yields `[]` (for every fuel). -/
theorem c4_chain_examples :
    (∀ n, patchSkillEffectsFuel (n + 2) ⟨["A", "B", "C"], []⟩ c4patch1 [] =
      WalkOut.done ["A", "X"]) ∧
    (∀ n, patchSkillEffectsFuel n ⟨["A", "B"], []⟩ c4patch2 [] =
      WalkOut.done []) := by
  constructor
  · intro n
    rfl
  · intro n
    rfl

/-- The strings any patched successor step can produce: the string payloads
of the patch's `set` entries. -/
def patchSetStrings (patch : Patch) : List String :=
  patch.filterMap (fun pc =>
    match pc.2 with
    | ItemChange.set (GameDataValue.string s) => some s
    | _ => none)

theorem nextEffect_ok_some_mem {prev : String} {origEffects : List String}
    {patch : Patch} {pre : Path} {v : String}
    (h : nextEffect prev origEffects patch pre = Except.ok (some v)) :
    v ∈ patchSetStrings patch ∨ v ∈ origEffects := by
  unfold nextEffect at h
  cases hm : mapGet patch (pre ++ [prev]) with
  | none =>
      rw [hm] at h
      simp only [Except.ok.injEq] at h
      rcases Option.bind_eq_some.mp h with ⟨i, _, hg⟩
      right
      exact List.get?_mem hg
  | some c =>
      rw [hm] at h
      match c with
      | ItemChange.removed => simp at h
      | ItemChange.set (GameDataValue.string s) =>
          simp only [Except.ok.injEq, Option.some.injEq] at h
          subst h
          left
          exact List.mem_filterMap.mpr
            ⟨(pre ++ [prev], ItemChange.set (GameDataValue.string s)),
              mapGet_mem hm, rfl⟩
      | ItemChange.set (GameDataValue.i32 n) => simp at h
      | ItemChange.set (GameDataValue.f32 b) => simp at h
      | ItemChange.set GameDataValue.unit => simp at h

/-- Every pass through the loop consumes one unit of fuel and appends one
successor; a run that exhausts its fuel has built an accumulator of
exactly `acc.length + fuel` elements, all drawn from the starting
accumulator, the patch's `set` strings, or the original chain. -/
theorem chainWalk_fuelOut {origEffects : List String} {patch : Patch} {pre : Path} :
    ∀ (fuel : Nat) (cur : String) (acc acc2 : List String) (cur2 : String),
      chainWalk origEffects patch pre fuel cur acc = WalkOut.fuelOut acc2 cur2 →
      acc2.length = acc.length + fuel ∧
        ∀ x ∈ acc2, x ∈ acc ∨ x ∈ patchSetStrings patch ∨ x ∈ origEffects := by
  intro fuel
  induction fuel with
  | zero =>
      intro cur acc acc2 cur2 h
      simp only [chainWalk] at h
      cases h
      exact ⟨rfl, fun x hx => Or.inl hx⟩
  | succ n ih =>
      intro cur acc acc2 cur2 h
      simp only [chainWalk] at h
      cases hn : nextEffect cur origEffects patch pre with
      | error e => rw [hn] at h; simp at h
      | ok o =>
          rw [hn] at h
          cases o with
          | none => simp at h
          | some nxt =>
              simp only at h
              obtain ⟨hlen, hmem⟩ := ih nxt (acc ++ [nxt]) acc2 cur2 h
              constructor
              · rw [hlen]
                simp
                omega
              · intro x hx
                rcases hmem x hx with hx1 | hx2
                · rcases List.mem_append.mp hx1 with hx1 | hx1
                  · exact Or.inl hx1
                  · have : x = nxt := by simpa using hx1
                    subst this
                    exact Or.inr (nextEffect_ok_some_mem hn)
                · exact Or.inr hx2

/-- Enough fuel to force a repeated element if the walk has not finished:
two more than the number of candidate successor strings. -/
def chainFuelBound (skill : Skill) (patch : Patch) : Nat :=
  (patchSetStrings patch ++ skill.effects).length + 2

/-- C6 (amended): with fuel `chainFuelBound`, a chain reconstruction that
is still running must have repeated an element — the loop terminates
unless the successor walk revisits some element (a cycle). -/
theorem c6_nontermination_iff_revisit (skill : Skill) (patch : Patch) (pre0 : Path)
    (acc : List String) (cur : String)
    (h : patchSkillEffectsFuel (chainFuelBound skill patch) skill patch pre0 =
      WalkOut.fuelOut acc cur) :
    ¬ acc.Nodup := by
  intro hnd
  have hsub : ∀ (e : String), e ∈ patchSetStrings patch ∨ e ∈ skill.effects →
      (∀ x ∈ acc, x ∈ [e] ∨ x ∈ patchSetStrings patch ∨ x ∈ skill.effects) →
      acc.length = 1 + chainFuelBound skill patch → False := by
    intro e he hmem hlen
    have hsubset : acc ⊆ patchSetStrings patch ++ skill.effects := by
      intro x hx
      rcases hmem x hx with hx1 | hx2
      · have : x = e := by simpa using hx1
        subst this
        exact List.mem_append.mpr he
      · exact List.mem_append.mpr hx2
    have hle : acc.length ≤ (patchSetStrings patch ++ skill.effects).length :=
      (List.subperm_of_subset hnd hsubset).length_le
    rw [hlen] at hle
    unfold chainFuelBound at hle
    omega
  unfold patchSkillEffectsFuel at h
  cases hs : mapGet patch (pre0 ++ ["effect"]) with
  | none =>
      rw [hs] at h
      cases hh : skill.effects.get? 0 with
      | none => rw [hh] at h; simp at h
      | some cur0 =>
          rw [hh] at h
          simp only at h
          obtain ⟨hlen, hmem⟩ := chainWalk_fuelOut _ _ _ _ _ h
          exact hsub cur0 (Or.inr (List.get?_mem hh)) (by simpa using hmem)
            (by simpa using hlen)
  | some c =>
      rw [hs] at h
      match c with
      | ItemChange.removed => simp at h
      | ItemChange.set (GameDataValue.string e) =>
          simp only at h
          obtain ⟨hlen, hmem⟩ := chainWalk_fuelOut _ _ _ _ _ h
          have he : e ∈ patchSetStrings patch :=
            List.mem_filterMap.mpr
              ⟨(pre0 ++ ["effect"], ItemChange.set (GameDataValue.string e)),
                mapGet_mem hs, rfl⟩
          exact hsub e (Or.inl he) (by simpa using hmem) (by simpa using hlen)
      | ItemChange.set (GameDataValue.i32 n) => simp at h
      | ItemChange.set (GameDataValue.f32 b) => simp at h
      | ItemChange.set GameDataValue.unit => simp at h

/-- Witness: applying the amended C6 theorem at the concrete cyclic input. -/
def cycPatch : Patch := [(["effect", "A"], ItemChange.set (GameDataValue.string "A"))]

def cycSkill : Skill := ⟨["A"], []⟩

theorem c6_nontermination_iff_revisit_witness :
    patchSkillEffectsFuel (chainFuelBound cycSkill cycPatch) cycSkill cycPatch [] =
      WalkOut.fuelOut ["A", "A", "A", "A", "A"] "A" ∧
    ¬ (["A", "A", "A", "A", "A"] : List String).Nodup :=
  ⟨by decide,
    c6_nontermination_iff_revisit cycSkill cycPatch []
      ["A", "A", "A", "A", "A"] "A" (by decide)⟩

theorem cyc_walk_never_done :
    ∀ (fuel : Nat) (acc : List String),
      (chainWalk ["A"] cycPatch ["effect"] fuel "A" acc).isDone = false := by
  intro fuel
  induction fuel with
  | zero => intro acc; rfl
  | succ n ih =>
      intro acc
      have hstep : nextEffect "A" ["A"] cycPatch ["effect"] =
          Except.ok (some "A") := rfl
      simp only [chainWalk, hstep]
      exact ih (acc ++ ["A"])

/-- C6 (counterexample): on a patch whose successor entries form a cycle
(successor-of "A" = "A"), `patch_skill_effects` never terminates: no amount
of fuel makes the loop finish. -/
theorem c6_counterexample : ¬ patchSkillEffectsHalts cycSkill cycPatch [] := by
  rintro ⟨fuel, out, h⟩
  have hred : patchSkillEffectsFuel fuel cycSkill cycPatch [] =
      chainWalk ["A"] cycPatch ["effect"] fuel "A" ["A"] := rfl
  rw [hred] at h
  have := cyc_walk_never_done fuel ["A"]
  rw [h] at this
  simp [WalkOut.isDone] at this

/-! ## Set-valued list fields (`patch_list`) -/

/-- Embeds `list.iter().position(|x| x == &key)` followed by `list.remove(pos)`:
remove the first occurrence of `key`, or `none` if absent. -/
def removeFirst (key : String) : List String → Option (List String)
  | [] => none
  | x :: rest =>
      if x = key then some rest else (removeFirst key rest).map (fun l => x :: l)

/-- Embeds `patch_list`: the last path segment is the keyed element; a
unit-valued `set` appends it, `removed` deletes its first occurrence and
panics (error) when it is absent. -/
def patchList (list : List String) (path : Path) (change : ItemChange) :
    Except String (List String) :=
  match path.getLast? with
  | none => Except.error "path is empty"
  | some key =>
      match change with
      | ItemChange.set GameDataValue.unit => Except.ok (list ++ [key])
      | ItemChange.set _ => Except.error "value kind mismatch, expected unit"
      | ItemChange.removed =>
          match removeFirst key list with
          | some out => Except.ok out
          | none => Except.error "attempt to remove non-existing entry"

theorem removeFirst_eq_none_iff (key : String) (l : List String) :
    removeFirst key l = none ↔ key ∉ l := by
  induction l with
  | nil => simp [removeFirst]
  | cons x rest ih =>
      by_cases h : x = key
      · simp [removeFirst, h]
      · simp [removeFirst, h, Option.map_eq_none', ih, Ne.symm h]

theorem removeFirst_perm {key : String} {l r : List String}
    (h : removeFirst key l = some r) : (key :: r).Perm l := by
  induction l generalizing r with
  | nil => simp [removeFirst] at h
  | cons x rest ih =>
      by_cases hx : x = key
      · simp only [removeFirst, if_pos hx] at h
        cases h
        subst hx
        exact List.Perm.refl _
      · simp only [removeFirst, if_neg hx] at h
        rcases Option.map_eq_some'.mp h with ⟨r1, hr1, rfl⟩
        exact (List.Perm.swap x key r1).trans ((ih hr1).cons x)

/-- C9: on a set-valued list field, "set V (unit) then remove V" restores
the original membership (the result is a permutation of the original list),
and removing an absent V is fatal (an error, never a silent no-op). -/
theorem c9_list_set_remove (l : List String) (path : Path) (v : String)
    (h : path.getLast? = some v) :
    patchList l path (ItemChange.set GameDataValue.unit) = Except.ok (l ++ [v]) ∧
    (∃ r, patchList (l ++ [v]) path ItemChange.removed = Except.ok r ∧ r.Perm l) ∧
    (v ∉ l → patchList l path ItemChange.removed =
      Except.error "attempt to remove non-existing entry") := by
  refine ⟨by simp [patchList, h], ?_, ?_⟩
  · cases hr : removeFirst v (l ++ [v]) with
    | none =>
        exact absurd ((removeFirst_eq_none_iff _ _).mp hr) (by simp)
    | some r =>
        refine ⟨r, by simp [patchList, h, hr], ?_⟩
        have hp : (v :: r).Perm (v :: l) :=
          (removeFirst_perm hr).trans (List.perm_append_singleton _ _)
        exact (List.perm_cons v).mp hp
  · intro hv
    simp [patchList, h, (removeFirst_eq_none_iff _ _).mpr hv]

theorem c9_list_set_remove_witness :
    (["tags", "V"] : Path).getLast? = some "V" ∧
    (patchList ["W"] ["tags", "V"] (ItemChange.set GameDataValue.unit) =
        Except.ok (["W"] ++ ["V"]) ∧
      (∃ r, patchList (["W"] ++ ["V"]) ["tags", "V"] ItemChange.removed =
          Except.ok r ∧ r.Perm ["W"]) ∧
      ("V" ∉ (["W"] : List String) → patchList ["W"] ["tags", "V"] ItemChange.removed =
        Except.error "attempt to remove non-existing entry")) :=
  ⟨rfl, c9_list_set_remove ["W"] ["tags", "V"] "V" rfl⟩

/-! ## Weapons (`Weapons::apply`) -/

/-- One weapon bank entry (`struct Weapon`); `atk` and `crit` are `f32`
fields carried as uninterpreted bit patterns, `dmg` is split into its two
`i32` components. -/
structure Weapon where
  atk : Nat
  dmgMin : Int
  dmgMax : Int
  crit : Nat
  spd : Int
deriving DecidableEq

/-- Embeds `ItemChange::unwrap_set` (panics on `Removed`). -/
def ItemChange.unwrapSet : ItemChange → Except String GameDataValue
  | .set v => Except.ok v
  | .removed => Except.error "called unwrap_set on Removed"

/-- Embeds `GameDataValue::unwrap_f32` (panics on any other kind). -/
def GameDataValue.unwrapF32 : GameDataValue → Except String Nat
  | .f32 b => Except.ok b
  | _ => Except.error "value kind mismatch, expected f32"

/-- Embeds `GameDataValue::unwrap_i32` (panics on any other kind). -/
def GameDataValue.unwrapI32 : GameDataValue → Except String Int
  | .i32 n => Except.ok n
  | _ => Except.error "value kind mismatch, expected i32"

/-- Embeds `str::parse::<usize>`: all-digit strings parse, anything else
(empty or with a non-digit) fails. -/
def parseNat (s : String) : Option Nat :=
  if s.isEmpty then none
  else
    s.toList.foldl (fun acc c =>
      acc.bind (fun n =>
        if 48 ≤ c.toNat ∧ c.toNat ≤ 57 then some (n * 10 + (c.toNat - 48)) else none))
      (some 0)

/-- Embeds `Weapons::apply`: parse segment 1 as the bank index, dispatch on
segment 2.  NOTE: the `"crit"` arm of the source assigns `self.0[index].atk`,
not `.crit`; this embedding reproduces that line faithfully. -/
def weaponsApply (ws : List Weapon) (path : Path) (change : ItemChange) :
    Except String (List Weapon) :=
  match (path.get? 1).bind parseNat with
  | none => Except.error "bad weapon index"
  | some index =>
      match ws.get? index with
      | none => Except.error "weapon index out of range"
      | some w =>
          match path.get? 2 with
          | none => Except.error "missing weapon sub-field"
          | some sub =>
              if sub = "atk" then
                (change.unwrapSet.bind GameDataValue.unwrapF32).map
                  (fun x => ws.set index { w with atk := x })
              else if sub = "dmg min" then
                (change.unwrapSet.bind GameDataValue.unwrapI32).map
                  (fun x => ws.set index { w with dmgMin := x })
              else if sub = "dmg max" then
                (change.unwrapSet.bind GameDataValue.unwrapI32).map
                  (fun x => ws.set index { w with dmgMax := x })
              else if sub = "crit" then
                (change.unwrapSet.bind GameDataValue.unwrapF32).map
                  (fun x => ws.set index { w with atk := x })
              else if sub = "spd" then
                (change.unwrapSet.bind GameDataValue.unwrapI32).map
                  (fun x => ws.set index { w with spd := x })
              else Except.error "Unexpected key in hero info patch"

/-- A concrete 5-weapon bank with pairwise distinct field values. -/
def c8weapons : List Weapon :=
  [⟨10, 1, 2, 20, 3⟩, ⟨11, 4, 5, 21, 6⟩, ⟨12, 7, 8, 22, 9⟩,
   ⟨13, 30, 31, 23, 32⟩, ⟨14, 33, 34, 24, 35⟩]

/-- C8 (code bug evidence): a `set` at `["weapons","0","crit"]` overwrites
weapon 0's `atk` field and leaves `crit` unchanged — the `"crit"` match arm
of `Weapons::apply` assigns to `atk`. -/
theorem c8_crit_arm_writes_atk :
    weaponsApply c8weapons ["weapons", "0", "crit"]
        (ItemChange.set (GameDataValue.f32 77)) =
      Except.ok [⟨77, 1, 2, 20, 3⟩, ⟨11, 4, 5, 21, 6⟩, ⟨12, 7, 8, 22, 9⟩,
        ⟨13, 30, 31, 23, 32⟩, ⟨14, 33, 34, 24, 35⟩] := by
  rfl

/-! ## Catch-all extension field (`other`): flattening and patch application -/

/-- Modelled from the spec: `BTreeSetable::to_set` for `Vec<String>` lives in
the `game_data` module, which is not under `src/`.  Per spec 4.1, each element
becomes a present/absent unit-valued leaf keyed by the element's own text. -/
def toSet (l : List String) : DataMap :=
  l.map (fun v => ([v], GameDataValue.unit))

/-- Modelled from the spec: `DataMap::extend_prefixed` lives in the `diff`
module, which is not under `src/`.  Per spec 4.1, composite fields flatten by
re-prefixing every produced path with the field's own name and inserting the
result. -/
def extendUnder (m : DataMap) (pre : String) (add : DataMap) : DataMap :=
  (add.map (fun e => (pre :: e.1, e.2))).foldl (fun acc e => mapInsert e.1 e.2 acc) m

/-- Embeds the `for (key, value) in &self.other` loop of `HeroInfo::to_map`:
two levels of prefixing (outer key, then inner key) under the `"other"`
prefix, around the list-as-set encoding. -/
def otherToMapPart (other : List ((String × String) × List String)) : DataMap :=
  other.foldl (fun inner kv =>
    extendUnder inner "other" (extendUnder [] kv.1.1 (extendUnder [] kv.1.2 (toSet kv.2)))) []

/-- Embeds `Vec::remove(i)`: the removed element and the remaining vector, `none`
when the index is out of bounds (a panic in the source). -/
def listRemoveAt {α : Type} (l : List α) (i : Nat) : Option (α × List α) :=
  match l.get? i with
  | none => none
  | some a => some (a, l.eraseIdx i)

/-- Embeds the `"other"` arm of `HeroInfo::apply_patch`:
`let first = path.remove(1); let second = path.remove(2);` (the second
removal indexes the already-shifted path), then `unwrap_string` on a `set`
(pushing into the entry keyed `(first, second)`) or `HashMap::remove` on a
`removed`. -/
def heroApplyOther (other : List ((String × String) × List String)) (path : Path)
    (change : ItemChange) :
    Except String (List ((String × String) × List String)) :=
  match listRemoveAt path 1 with
  | none => Except.error "path index 1 out of bounds"
  | some (first, path1) =>
      match listRemoveAt path1 2 with
      | none => Except.error "path index 2 out of bounds"
      | some (second, _) =>
          match change with
          | ItemChange.set (GameDataValue.string s) =>
              Except.ok (mapPush (first, second) s other)
          | ItemChange.set _ =>
              Except.error "value kind mismatch, expected string"
          | ItemChange.removed =>
              Except.ok (other.filter (fun e => decide (e.1 ≠ (first, second))))

/-- C7 (code bug evidence): flattening a catch-all entry `(k1,k2) -> [v]`
does produce the unit-valued leaf `["other",k1,k2,v]` (after the record-id
prefix), but applying the very change this encoding produces — a unit-valued
`set` at that path — panics in `unwrap_string`; and a string-valued `set`
is keyed by `(k1, v)` (the shifted second removal), not `(k1, k2)`. -/
theorem c7_other_flatten_apply_mismatch :
    mapGet (otherToMapPart [(("k1", "k2"), ["v"])]) ["other", "k1", "k2", "v"] =
      some GameDataValue.unit ∧
    heroApplyOther [] ["other", "k1", "k2", "v"] (ItemChange.set GameDataValue.unit) =
      Except.error "value kind mismatch, expected string" ∧
    heroApplyOther [] ["other", "k1", "k2", "v"]
        (ItemChange.set (GameDataValue.string "s")) =
      Except.ok [(("k1", "v"), ["s"])] := by
  refine ⟨?_, ?_, ?_⟩ <;> rfl

/-! ## The merge engine (`HeroInfo::try_merge_patches`) -/

/-- A path routed to per-skill chain handling:
`path.get(0) == Some("skills") && path.get(2) == Some("effects")`. -/
def isSkillEffectsPath (p : Path) : Prop :=
  p.get? 0 = some "skills" ∧ p.get? 2 = some "effects"

instance (p : Path) : Decidable (isSkillEffectsPath p) :=
  inferInstanceAs (Decidable (p.get? 0 = some "skills" ∧ p.get? 2 = some "effects"))

/-- A path routed to riposte chain handling:
`path.get(0) == Some("riposte_skill") && path.get(1) == Some("effects")`. -/
def isRiposteEffectsPath (p : Path) : Prop :=
  p.get? 0 = some "riposte_skill" ∧ p.get? 1 = some "effects"

instance (p : Path) : Decidable (isRiposteEffectsPath p) :=
  inferInstanceAs (Decidable (p.get? 0 = some "riposte_skill" ∧ p.get? 1 = some "effects"))

/-- The regrouping loop of `try_merge_patches`: all (source, path, change)
triples grouped by path, preserving submission order within each group. -/
def regroup (patches : List ModFileChange) : List (Path × Group) :=
  patches.foldl
    (fun acc mc => mc.2.foldl (fun acc2 pc => mapPush pc.1 (mc.1, pc.2) acc2) acc)
    []

/-- The loop state of `try_merge_patches`: the merged patch, the conflict
set, and the two chain collectors (`skill_effects`, `riposte_effects`). -/
structure MergeState where
  merged : Patch
  unmerged : Conflicts
  skillEffects : List (String × Group)
  riposteEffects : Group
deriving DecidableEq

/-- One iteration of the classification loop of `try_merge_patches`. -/
def mergeStep (st : MergeState) (pg : Path × Group) : MergeState :=
  if isSkillEffectsPath pg.1 then
    { st with skillEffects := mapPushMany (pg.1.getD 1 "") pg.2 st.skillEffects }
  else if isRiposteEffectsPath pg.1 then
    { st with riposteEffects := st.riposteEffects ++ pg.2 }
  else
    match pg.2 with
    | [c] => { st with merged := mapInsert pg.1 c.2 st.merged }
    | chs => { st with unmerged := chs.foldl (fun u c => mapPush pg.1 c u) st.unmerged }

/-- The `for (skill, mut effects) in skill_effects` finishing loop. -/
def finishSkillEffects (mu : Patch × Conflicts) (sfx : List (String × Group)) :
    Patch × Conflicts :=
  sfx.foldl
    (fun mu entry =>
      match entry.2 with
      | [c] => (mapInsert ["skills", entry.1, "effects"] c.2 mu.1, mu.2)
      | chs => (mu.1, mapInsert ["skills", entry.1, "effects"] chs mu.2))
    mu

/-- The unconditional riposte-chain flush at the end of
`try_merge_patches`: one collected edit merges, anything else (including
the empty collection) becomes a conflict entry. -/
def riposteFinish (mu : Patch × Conflicts) (rip : Group) : Patch × Conflicts :=
  match rip with
  | [c] => (mapInsert ["riposte_skill", "effects"] c.2 mu.1, mu.2)
  | chs => (mu.1, mapInsert ["riposte_skill", "effects"] chs mu.2)

/-- The classification loop's final state. -/
def mergeFold (patches : List ModFileChange) : MergeState :=
  (regroup patches).foldl mergeStep ⟨[], [], [], []⟩

/-- Embeds `HeroInfo::try_merge_patches`: regroup by path, classify each
group (chain collectors, single change, conflict), then flush the skill
chain collectors and — unconditionally — the riposte collector. -/
def tryMergePatches (patches : List ModFileChange) : Patch × Conflicts :=
  let st := mergeFold patches
  riposteFinish (finishSkillEffects (st.merged, st.unmerged) st.skillEffects)
    st.riposteEffects

/-- All (source, change) entries submitted for path `p`, in submission
order: what "the sources that change `p`" denotes. -/
def entriesFor (patches : List ModFileChange) (p : Path) : Group :=
  patches.bind (fun mc =>
    mc.2.filterMap (fun pc => if pc.1 = p then some (mc.1, pc.2) else none))

/-- The edits collected for skill `s`'s chain by the classification loop,
in group order. -/
def collectSkill : List (Path × Group) → String → Group
  | [], _ => []
  | pg :: rest, s =>
      (if isSkillEffectsPath pg.1 ∧ pg.1.getD 1 "" = s then pg.2 else []) ++
        collectSkill rest s

/-- The edits collected for the riposte chain by the classification loop. -/
def collectRip : List (Path × Group) → Group
  | [] => []
  | pg :: rest =>
      (if ¬ isSkillEffectsPath pg.1 ∧ isRiposteEffectsPath pg.1 then pg.2 else []) ++
        collectRip rest

/-- Group-combination helper: appending `g` to an optional existing group. -/
def combineG (o : Option Group) (g : Group) : Option Group :=
  if g = [] then o else some (o.getD [] ++ g)

/-- What the merged patch holds at a non-chain path, given that path's
group: the single change if the group is a singleton, else untouched. -/
def mergedOf (o : Option Group) (dflt : Option ItemChange) : Option ItemChange :=
  match o with
  | some [c] => some c.2
  | _ => dflt

/-- What the conflict set holds at a non-chain path, given that path's
group: all entries appended if the group has two or more, else untouched. -/
def unmergedOf (o : Option Group) (old : Option Group) : Option Group :=
  match o with
  | some [] => old
  | some [_] => old
  | some g => some (old.getD [] ++ g)
  | none => old

theorem skillPath_isSkill (s : String) :
    isSkillEffectsPath ["skills", s, "effects"] := ⟨rfl, rfl⟩

theorem ripPath_isRip : isRiposteEffectsPath ["riposte_skill", "effects"] := ⟨rfl, rfl⟩

theorem ripPath_not_skill : ¬ isSkillEffectsPath ["riposte_skill", "effects"] := by
  intro h
  simpa [isSkillEffectsPath] using h

theorem skillPath_not_rip (s : String) :
    ¬ isRiposteEffectsPath ["skills", s, "effects"] := by
  intro h
  simpa [isRiposteEffectsPath] using h

theorem rip_not_skill {p : Path} (h : isRiposteEffectsPath p) :
    ¬ isSkillEffectsPath p := by
  intro h2
  rw [isRiposteEffectsPath] at h
  rw [isSkillEffectsPath] at h2
  rw [h.1] at h2
  simpa using h2.1

theorem ripPath_ne_skillPath (s : String) :
    (["riposte_skill", "effects"] : Path) ≠ ["skills", s, "effects"] := by
  simp

theorem skillPath_inj {s t : String} :
    (["skills", s, "effects"] : Path) = ["skills", t, "effects"] ↔ s = t := by
  simp

/-- A skill-effects path is `"skills" :: a :: "effects" :: rest`. -/
theorem skill_shape_decomp {p : Path} (h : isSkillEffectsPath p) :
    ∃ a rest, p = "skills" :: a :: "effects" :: rest := by
  obtain ⟨h0, h2⟩ := h
  match p with
  | [] => simp at h0
  | [x] => simp at h2
  | [x, y] => simp at h2
  | x :: y :: z :: rest =>
      simp only [List.get?] at h0 h2
      cases h0
      cases h2
      exact ⟨y, rest, rfl⟩

/-- A riposte-effects path is `"riposte_skill" :: "effects" :: rest`. -/
theorem rip_shape_decomp {p : Path} (h : isRiposteEffectsPath p) :
    ∃ rest, p = "riposte_skill" :: "effects" :: rest := by
  obtain ⟨h0, h1⟩ := h
  match p with
  | [] => simp at h0
  | [x] => simp at h1
  | x :: y :: rest =>
      simp only [List.get?] at h0 h1
      cases h0
      cases h1
      exact ⟨rest, rfl⟩

theorem mergeStep_merged (st : MergeState) (pg : Path × Group) :
    (mergeStep st pg).merged =
      if isSkillEffectsPath pg.1 then st.merged
      else if isRiposteEffectsPath pg.1 then st.merged
      else
        match pg.2 with
        | [c] => mapInsert pg.1 c.2 st.merged
        | _ => st.merged := by
  unfold mergeStep
  by_cases h1 : isSkillEffectsPath pg.1
  · simp [h1]
  · by_cases h2 : isRiposteEffectsPath pg.1
    · simp [h1, h2]
    · simp only [if_neg h1, if_neg h2]
      cases hg : pg.2 with
      | nil => rfl
      | cons c t => cases t with
        | nil => rfl
        | cons c2 t2 => rfl

theorem mergeStep_unmerged (st : MergeState) (pg : Path × Group) :
    (mergeStep st pg).unmerged =
      if isSkillEffectsPath pg.1 then st.unmerged
      else if isRiposteEffectsPath pg.1 then st.unmerged
      else
        match pg.2 with
        | [_] => st.unmerged
        | chs => chs.foldl (fun u c => mapPush pg.1 c u) st.unmerged := by
  unfold mergeStep
  by_cases h1 : isSkillEffectsPath pg.1
  · simp [h1]
  · by_cases h2 : isRiposteEffectsPath pg.1
    · simp [h1, h2]
    · simp only [if_neg h1, if_neg h2]
      cases hg : pg.2 with
      | nil => rfl
      | cons c t => cases t with
        | nil => rfl
        | cons c2 t2 => rfl

theorem mergeStep_skillEffects (st : MergeState) (pg : Path × Group) :
    (mergeStep st pg).skillEffects =
      if isSkillEffectsPath pg.1 then
        mapPushMany (pg.1.getD 1 "") pg.2 st.skillEffects
      else st.skillEffects := by
  unfold mergeStep
  by_cases h1 : isSkillEffectsPath pg.1
  · simp [h1]
  · by_cases h2 : isRiposteEffectsPath pg.1
    · simp [h1, h2]
    · simp only [if_neg h1, if_neg h2]
      cases hg : pg.2 with
      | nil => rfl
      | cons c t => cases t with
        | nil => rfl
        | cons c2 t2 => rfl

theorem mergeStep_rip (st : MergeState) (pg : Path × Group) :
    (mergeStep st pg).riposteEffects =
      if ¬ isSkillEffectsPath pg.1 ∧ isRiposteEffectsPath pg.1 then
        st.riposteEffects ++ pg.2
      else st.riposteEffects := by
  unfold mergeStep
  by_cases h1 : isSkillEffectsPath pg.1
  · simp [h1]
  · by_cases h2 : isRiposteEffectsPath pg.1
    · simp [h1, h2]
    · simp only [if_neg h1, if_neg h2]
      cases hg : pg.2 with
      | nil => simp [h2]
      | cons c t => cases t with
        | nil => simp [h2]
        | cons c2 t2 => simp [h2]

theorem combineG_push (o : Option Group) (x : ModName × ItemChange) (g : Group) :
    combineG (some (o.getD [] ++ [x])) g = combineG o (x :: g) := by
  by_cases hg : g = []
  · subst hg
    simp [combineG]
  · simp [combineG, hg, List.append_assoc]

theorem combineG_append (o : Option Group) (g1 g2 : Group) (h : g1 ≠ []) :
    combineG (some (o.getD [] ++ g1)) g2 = combineG o (g1 ++ g2) := by
  by_cases hg : g2 = []
  · subst hg
    simp [combineG, h]
  · simp [combineG, hg, h, List.append_assoc]

theorem combineG_assoc (o : Option Group) (g1 g2 : Group) :
    combineG (combineG o g1) g2 = combineG o (g1 ++ g2) := by
  by_cases h1 : g1 = []
  · subst h1
    simp [combineG]
  · rw [show combineG o g1 = some (o.getD [] ++ g1) from by simp [combineG, h1]]
    exact combineG_append o g1 g2 h1

theorem innerFold_get (m : ModName) (chs : List (Path × ItemChange))
    (acc : List (Path × Group)) (p : Path) :
    mapGet (chs.foldl (fun a pc => mapPush pc.1 (m, pc.2) a) acc) p =
      combineG (mapGet acc p)
        (chs.filterMap (fun pc => if pc.1 = p then some (m, pc.2) else none)) := by
  induction chs generalizing acc with
  | nil => simp [combineG]
  | cons pc rest ih =>
      rw [List.foldl_cons, ih]
      by_cases hp : pc.1 = p
      · subst hp
        rw [mapGet_mapPush_self]
        simp only [List.filterMap_cons, if_pos rfl]
        exact combineG_push _ _ _
      · rw [mapGet_mapPush_ne _ _ _ _ hp]
        simp only [List.filterMap_cons, if_neg hp]

theorem regroupAux_get (patches : List ModFileChange)
    (acc : List (Path × Group)) (p : Path) :
    mapGet (patches.foldl
        (fun acc mc =>
          mc.2.foldl (fun acc2 pc => mapPush pc.1 (mc.1, pc.2) acc2) acc)
        acc) p =
      combineG (mapGet acc p) (entriesFor patches p) := by
  induction patches generalizing acc with
  | nil => simp [entriesFor, combineG]
  | cons mc rest ih =>
      rw [List.foldl_cons, ih, innerFold_get, combineG_assoc]
      congr 1

/-- The regrouping loop computes, for every path, exactly its submitted
entries (in submission order), as an optional group. -/
theorem regroup_get (patches : List ModFileChange) (p : Path) :
    mapGet (regroup patches) p = combineG none (entriesFor patches p) := by
  unfold regroup
  rw [regroupAux_get]
  rfl

theorem innerFold_nodup (m : ModName) (chs : List (Path × ItemChange))
    (acc : List (Path × Group)) (h : (acc.map Prod.fst).Nodup) :
    ((chs.foldl (fun a pc => mapPush pc.1 (m, pc.2) a) acc).map Prod.fst).Nodup := by
  induction chs generalizing acc with
  | nil => exact h
  | cons pc rest ih => exact ih _ (nodup_keys_mapPush _ _ _ h)

theorem regroupAux_nodup (patches : List ModFileChange)
    (acc : List (Path × Group)) (h : (acc.map Prod.fst).Nodup) :
    ((patches.foldl
        (fun acc mc =>
          mc.2.foldl (fun acc2 pc => mapPush pc.1 (mc.1, pc.2) acc2) acc)
        acc).map Prod.fst).Nodup := by
  induction patches generalizing acc with
  | nil => exact h
  | cons mc rest ih => exact ih _ (innerFold_nodup _ _ _ h)

theorem regroup_keys_nodup (patches : List ModFileChange) :
    ((regroup patches).map Prod.fst).Nodup :=
  regroupAux_nodup patches [] (by simp)

theorem mapPush_groups_ne_nil {α β : Type} [DecidableEq α] {k : α} {v : β}
    {m : List (α × List β)} (h : ∀ e ∈ m, e.2 ≠ []) :
    ∀ e ∈ mapPush k v m, e.2 ≠ [] := by
  induction m with
  | nil =>
      intro e he
      have he2 : e = (k, [v]) := by simpa [mapPush] using he
      subst he2
      simp
  | cons f rest ih =>
      intro e he
      by_cases hf : f.1 = k
      · simp only [mapPush, hf, if_pos rfl] at he
        rcases List.mem_cons.mp he with he | he
        · subst he
          simp
        · exact h _ (List.mem_cons_of_mem _ he)
      · simp only [mapPush, if_neg hf] at he
        rcases List.mem_cons.mp he with he | he
        · subst he
          exact h _ (List.mem_cons_self _ _)
        · exact ih (fun e2 h2 => h _ (List.mem_cons_of_mem _ h2)) _ he

theorem innerFold_groups_ne_nil (m : ModName) (chs : List (Path × ItemChange))
    (acc : List (Path × Group)) (h : ∀ e ∈ acc, e.2 ≠ []) :
    ∀ e ∈ chs.foldl (fun a pc => mapPush pc.1 (m, pc.2) a) acc, e.2 ≠ [] := by
  induction chs generalizing acc with
  | nil => exact h
  | cons pc rest ih => exact ih _ (mapPush_groups_ne_nil h)

theorem regroup_groups_ne_nil (patches : List ModFileChange) :
    ∀ e ∈ regroup patches, e.2 ≠ [] := by
  unfold regroup
  generalize hacc : ([] : List (Path × Group)) = acc
  have h : ∀ e ∈ acc, e.2 ≠ [] := by
    rw [← hacc]
    simp
  clear hacc
  induction patches generalizing acc with
  | nil => exact h
  | cons mc rest ih => exact ih _ (innerFold_groups_ne_nil _ _ _ h)

theorem pushAll_get_ne (k p : Path) (g : Group) (u : Conflicts) (h : k ≠ p) :
    mapGet (g.foldl (fun u c => mapPush k c u) u) p = mapGet u p := by
  induction g generalizing u with
  | nil => rfl
  | cons c rest ih => rw [List.foldl_cons, ih, mapGet_mapPush_ne _ _ _ _ h]

theorem pushAll_get_self (k : Path) (g : Group) (u : Conflicts) (h : g ≠ []) :
    mapGet (g.foldl (fun u c => mapPush k c u) u) k =
      some ((mapGet u k).getD [] ++ g) := by
  induction g generalizing u with
  | nil => cases h rfl
  | cons c rest ih =>
      rw [List.foldl_cons]
      by_cases hr : rest = []
      · subst hr
        simp [mapGet_mapPush_self]
      · rw [ih _ hr, mapGet_mapPush_self]
        simp [List.append_assoc]

theorem mergeStep_merged_get_ne (st : MergeState) (pg : Path × Group) (p : Path)
    (h : pg.1 ≠ p) :
    mapGet (mergeStep st pg).merged p = mapGet st.merged p := by
  rw [mergeStep_merged]
  by_cases hs1 : isSkillEffectsPath pg.1
  · rw [if_pos hs1]
  · by_cases hs2 : isRiposteEffectsPath pg.1
    · rw [if_neg hs1, if_pos hs2]
    · rw [if_neg hs1, if_neg hs2]
      cases hg : pg.2 with
      | nil => rfl
      | cons c t =>
          cases t with
          | nil => exact mapGet_mapInsert_ne _ _ _ _ h
          | cons c2 t2 => rfl

theorem mergeStep_unmerged_get_ne (st : MergeState) (pg : Path × Group) (p : Path)
    (h : pg.1 ≠ p) :
    mapGet (mergeStep st pg).unmerged p = mapGet st.unmerged p := by
  rw [mergeStep_unmerged]
  by_cases hs1 : isSkillEffectsPath pg.1
  · rw [if_pos hs1]
  · by_cases hs2 : isRiposteEffectsPath pg.1
    · rw [if_neg hs1, if_pos hs2]
    · rw [if_neg hs1, if_neg hs2]
      cases hg : pg.2 with
      | nil => exact pushAll_get_ne _ _ _ _ h
      | cons c t =>
          cases t with
          | nil => rfl
          | cons c2 t2 => exact pushAll_get_ne _ _ _ _ h

theorem mergeStep_merged_get_chain (st : MergeState) (pg : Path × Group) (p : Path)
    (hp : isSkillEffectsPath p ∨ isRiposteEffectsPath p) :
    mapGet (mergeStep st pg).merged p = mapGet st.merged p := by
  by_cases hq : pg.1 = p
  · subst hq
    rw [mergeStep_merged]
    rcases hp with hp | hp
    · rw [if_pos hp]
    · rw [if_neg (rip_not_skill hp), if_pos hp]
  · exact mergeStep_merged_get_ne st pg p hq

theorem mergeStep_unmerged_get_chain (st : MergeState) (pg : Path × Group) (p : Path)
    (hp : isSkillEffectsPath p ∨ isRiposteEffectsPath p) :
    mapGet (mergeStep st pg).unmerged p = mapGet st.unmerged p := by
  by_cases hq : pg.1 = p
  · subst hq
    rw [mergeStep_unmerged]
    rcases hp with hp | hp
    · rw [if_pos hp]
    · rw [if_neg (rip_not_skill hp), if_pos hp]
  · exact mergeStep_unmerged_get_ne st pg p hq

theorem foldMerge_merged_ne (L : List (Path × Group)) (st : MergeState) (p : Path)
    (h : p ∉ L.map Prod.fst) :
    mapGet ((L.foldl mergeStep st).merged) p = mapGet st.merged p := by
  induction L generalizing st with
  | nil => rfl
  | cons pg rest ih =>
      have h1 : pg.1 ≠ p := fun hc => h (by simp [hc])
      have h2 : p ∉ rest.map Prod.fst := fun hc => h (by simp [hc])
      rw [List.foldl_cons, ih _ h2, mergeStep_merged_get_ne st pg p h1]

theorem foldMerge_unmerged_ne (L : List (Path × Group)) (st : MergeState) (p : Path)
    (h : p ∉ L.map Prod.fst) :
    mapGet ((L.foldl mergeStep st).unmerged) p = mapGet st.unmerged p := by
  induction L generalizing st with
  | nil => rfl
  | cons pg rest ih =>
      have h1 : pg.1 ≠ p := fun hc => h (by simp [hc])
      have h2 : p ∉ rest.map Prod.fst := fun hc => h (by simp [hc])
      rw [List.foldl_cons, ih _ h2, mergeStep_unmerged_get_ne st pg p h1]

theorem foldMerge_merged_chain (L : List (Path × Group)) (st : MergeState) (p : Path)
    (hp : isSkillEffectsPath p ∨ isRiposteEffectsPath p) :
    mapGet ((L.foldl mergeStep st).merged) p = mapGet st.merged p := by
  induction L generalizing st with
  | nil => rfl
  | cons pg rest ih =>
      rw [List.foldl_cons, ih _, mergeStep_merged_get_chain st pg p hp]

theorem foldMerge_unmerged_chain (L : List (Path × Group)) (st : MergeState) (p : Path)
    (hp : isSkillEffectsPath p ∨ isRiposteEffectsPath p) :
    mapGet ((L.foldl mergeStep st).unmerged) p = mapGet st.unmerged p := by
  induction L generalizing st with
  | nil => rfl
  | cons pg rest ih =>
      rw [List.foldl_cons, ih _, mergeStep_unmerged_get_chain st pg p hp]

/-- Classification of non-chain paths into the merged patch: a path's group
is accepted verbatim when it is a singleton, untouched otherwise. -/
theorem foldMerge_merged_get (L : List (Path × Group)) (st : MergeState) (p : Path)
    (hnd : (L.map Prod.fst).Nodup)
    (hp1 : ¬ isSkillEffectsPath p) (hp2 : ¬ isRiposteEffectsPath p) :
    mapGet ((L.foldl mergeStep st).merged) p =
      mergedOf (mapGet L p) (mapGet st.merged p) := by
  induction L generalizing st with
  | nil => rfl
  | cons pg rest ih =>
      rw [List.map_cons, List.nodup_cons] at hnd
      rw [List.foldl_cons]
      by_cases hq : pg.1 = p
      · subst hq
        rw [foldMerge_merged_ne rest _ _ hnd.1]
        rw [show mapGet (pg :: rest) pg.1 = some pg.2 from by simp [mapGet]]
        rw [mergeStep_merged, if_neg hp1, if_neg hp2]
        cases hg : pg.2 with
        | nil => rfl
        | cons c t =>
            cases t with
            | nil => rw [mapGet_mapInsert_self]; rfl
            | cons c2 t2 => rfl
      · rw [ih _ hnd.2]
        rw [show mapGet (pg :: rest) p = mapGet rest p from by
          simp [mapGet, hq]]
        rw [mergeStep_merged_get_ne st pg p hq]

/-- Classification of non-chain paths into the conflict set: a path's group
is pushed entry-by-entry when it has two or more entries, untouched
otherwise. -/
theorem foldMerge_unmerged_get (L : List (Path × Group)) (st : MergeState) (p : Path)
    (hnd : (L.map Prod.fst).Nodup)
    (hp1 : ¬ isSkillEffectsPath p) (hp2 : ¬ isRiposteEffectsPath p) :
    mapGet ((L.foldl mergeStep st).unmerged) p =
      unmergedOf (mapGet L p) (mapGet st.unmerged p) := by
  induction L generalizing st with
  | nil => rfl
  | cons pg rest ih =>
      rw [List.map_cons, List.nodup_cons] at hnd
      rw [List.foldl_cons]
      by_cases hq : pg.1 = p
      · subst hq
        rw [foldMerge_unmerged_ne rest _ _ hnd.1]
        rw [show mapGet (pg :: rest) pg.1 = some pg.2 from by simp [mapGet]]
        rw [mergeStep_unmerged, if_neg hp1, if_neg hp2]
        cases hg : pg.2 with
        | nil => rfl
        | cons c t =>
            cases t with
            | nil => rfl
            | cons c2 t2 =>
                rw [pushAll_get_self _ _ _ (by simp)]
                rfl
      · rw [ih _ hnd.2]
        rw [show mapGet (pg :: rest) p = mapGet rest p from by
          simp [mapGet, hq]]
        rw [mergeStep_unmerged_get_ne st pg p hq]

/-- The skill-effects collector accumulates, per skill key, the
concatenation of all groups routed to that skill's chain. -/
theorem foldMerge_sfx_get (L : List (Path × Group)) (st : MergeState) (s : String)
    (hne : ∀ e ∈ L, e.2 ≠ []) :
    mapGet ((L.foldl mergeStep st).skillEffects) s =
      combineG (mapGet st.skillEffects s) (collectSkill L s) := by
  induction L generalizing st with
  | nil => simp [collectSkill, combineG]
  | cons pg rest ih =>
      rw [List.foldl_cons, ih _ (fun e he => hne _ (List.mem_cons_of_mem _ he))]
      rw [mergeStep_skillEffects]
      by_cases h1 : isSkillEffectsPath pg.1
      · by_cases hk : pg.1.getD 1 "" = s
        · rw [if_pos h1, hk, mapGet_mapPushMany_self,
            combineG_append _ _ _ (hne _ (List.mem_cons_self _ _))]
          rw [show collectSkill (pg :: rest) s = pg.2 ++ collectSkill rest s from by
            rw [collectSkill, if_pos ⟨h1, hk⟩]]
        · rw [if_pos h1, mapGet_mapPushMany_ne _ _ _ _ hk]
          rw [show collectSkill (pg :: rest) s = collectSkill rest s from by
            rw [collectSkill, if_neg (fun hc => hk hc.2)]
            simp]
      · rw [if_neg h1]
        rw [show collectSkill (pg :: rest) s = collectSkill rest s from by
          rw [collectSkill, if_neg (fun hc => h1 hc.1)]
          simp]

theorem foldMerge_sfx_nodup (L : List (Path × Group)) (st : MergeState)
    (h : (st.skillEffects.map Prod.fst).Nodup) :
    (((L.foldl mergeStep st).skillEffects).map Prod.fst).Nodup := by
  induction L generalizing st with
  | nil => exact h
  | cons pg rest ih =>
      rw [List.foldl_cons]
      apply ih
      rw [mergeStep_skillEffects]
      by_cases h1 : isSkillEffectsPath pg.1
      · rw [if_pos h1]
        exact nodup_keys_mapPushMany _ _ _ h
      · rw [if_neg h1]
        exact h

/-- The riposte collector accumulates every group routed to the riposte
chain, in order. -/
theorem foldMerge_rip_eq (L : List (Path × Group)) (st : MergeState) :
    (L.foldl mergeStep st).riposteEffects = st.riposteEffects ++ collectRip L := by
  induction L generalizing st with
  | nil => simp [collectRip]
  | cons pg rest ih =>
      rw [List.foldl_cons, ih, mergeStep_rip]
      by_cases h : ¬ isSkillEffectsPath pg.1 ∧ isRiposteEffectsPath pg.1
      · rw [if_pos h, collectRip, if_pos h, List.append_assoc]
      · rw [if_neg h, collectRip, if_neg h]
        simp

theorem tryMergePatches_eq (patches : List ModFileChange) :
    tryMergePatches patches =
      riposteFinish
        (finishSkillEffects
          ((mergeFold patches).merged, (mergeFold patches).unmerged)
          (mergeFold patches).skillEffects)
        (mergeFold patches).riposteEffects := rfl

theorem finishSkillEffects_cons (mu : Patch × Conflicts) (e : String × Group)
    (rest : List (String × Group)) :
    finishSkillEffects mu (e :: rest) =
      finishSkillEffects
        (match e.2 with
         | [c] => (mapInsert ["skills", e.1, "effects"] c.2 mu.1, mu.2)
         | chs => (mu.1, mapInsert ["skills", e.1, "effects"] chs mu.2))
        rest := rfl

/-- The finishing loop only writes at 3-segment skill chain paths; every
other path is untouched in both components. -/
theorem finish_get_other (mu : Patch × Conflicts) (sfx : List (String × Group))
    (p : Path) (hns : ∀ s, p ≠ ["skills", s, "effects"]) :
    mapGet (finishSkillEffects mu sfx).1 p = mapGet mu.1 p ∧
    mapGet (finishSkillEffects mu sfx).2 p = mapGet mu.2 p := by
  induction sfx generalizing mu with
  | nil => exact ⟨rfl, rfl⟩
  | cons e rest ih =>
      rw [finishSkillEffects_cons]
      have hne : (["skills", e.1, "effects"] : Path) ≠ p :=
        fun hc => hns e.1 hc.symm
      cases hg : e.2 with
      | nil =>
          obtain ⟨ha, hb⟩ := ih (mu.1, mapInsert ["skills", e.1, "effects"] [] mu.2)
          exact ⟨ha, by rw [hb]; exact mapGet_mapInsert_ne _ _ _ _ hne⟩
      | cons c t =>
          cases t with
          | nil =>
              obtain ⟨ha, hb⟩ :=
                ih (mapInsert ["skills", e.1, "effects"] c.2 mu.1, mu.2)
              exact ⟨by rw [ha]; exact mapGet_mapInsert_ne _ _ _ _ hne, hb⟩
          | cons c2 t2 =>
              obtain ⟨ha, hb⟩ :=
                ih (mu.1, mapInsert ["skills", e.1, "effects"] (c :: c2 :: t2) mu.2)
              exact ⟨ha, by rw [hb]; exact mapGet_mapInsert_ne _ _ _ _ hne⟩

theorem finish_get_notkey (mu : Patch × Conflicts) (sfx : List (String × Group))
    (s : String) (h : s ∉ sfx.map Prod.fst) :
    mapGet (finishSkillEffects mu sfx).1 ["skills", s, "effects"] =
      mapGet mu.1 ["skills", s, "effects"] ∧
    mapGet (finishSkillEffects mu sfx).2 ["skills", s, "effects"] =
      mapGet mu.2 ["skills", s, "effects"] := by
  induction sfx generalizing mu with
  | nil => exact ⟨rfl, rfl⟩
  | cons e rest ih =>
      have he : e.1 ≠ s := fun hc => h (by simp [hc])
      have hrest : s ∉ rest.map Prod.fst := fun hc => h (by simp [hc])
      have hne : (["skills", e.1, "effects"] : Path) ≠ ["skills", s, "effects"] :=
        fun hc => he (skillPath_inj.mp hc)
      rw [finishSkillEffects_cons]
      cases hg : e.2 with
      | nil =>
          obtain ⟨ha, hb⟩ := ih (mu.1, mapInsert ["skills", e.1, "effects"] [] mu.2)
            hrest
          exact ⟨ha, by rw [hb]; exact mapGet_mapInsert_ne _ _ _ _ hne⟩
      | cons c t =>
          cases t with
          | nil =>
              obtain ⟨ha, hb⟩ :=
                ih (mapInsert ["skills", e.1, "effects"] c.2 mu.1, mu.2) hrest
              exact ⟨by rw [ha]; exact mapGet_mapInsert_ne _ _ _ _ hne, hb⟩
          | cons c2 t2 =>
              obtain ⟨ha, hb⟩ :=
                ih (mu.1, mapInsert ["skills", e.1, "effects"] (c :: c2 :: t2) mu.2)
                  hrest
              exact ⟨ha, by rw [hb]; exact mapGet_mapInsert_ne _ _ _ _ hne⟩

/-- At skill `s`'s chain path, the finishing loop merges a singleton
collection and writes any other collection (as a whole) into the conflict
set. -/
theorem finish_get_skill (mu : Patch × Conflicts) (sfx : List (String × Group))
    (s : String) (hnd : (sfx.map Prod.fst).Nodup) :
    mapGet (finishSkillEffects mu sfx).1 ["skills", s, "effects"] =
      (match mapGet sfx s with
       | some [c] => some c.2
       | _ => mapGet mu.1 ["skills", s, "effects"]) ∧
    mapGet (finishSkillEffects mu sfx).2 ["skills", s, "effects"] =
      (match mapGet sfx s with
       | none => mapGet mu.2 ["skills", s, "effects"]
       | some [_] => mapGet mu.2 ["skills", s, "effects"]
       | some g => some g) := by
  induction sfx generalizing mu with
  | nil => exact ⟨rfl, rfl⟩
  | cons e rest ih =>
      rw [List.map_cons, List.nodup_cons] at hnd
      rw [finishSkillEffects_cons]
      by_cases he : e.1 = s
      · subst he
        rw [show mapGet (e :: rest) e.1 = some e.2 from by simp [mapGet]]
        cases hg : e.2 with
        | nil =>
            obtain ⟨ha, hb⟩ :=
              finish_get_notkey (mu.1, mapInsert ["skills", e.1, "effects"] [] mu.2)
                rest e.1 hnd.1
            exact ⟨ha, by rw [hb]; exact mapGet_mapInsert_self _ _ _⟩
        | cons c t =>
            cases t with
            | nil =>
                obtain ⟨ha, hb⟩ :=
                  finish_get_notkey
                    (mapInsert ["skills", e.1, "effects"] c.2 mu.1, mu.2)
                    rest e.1 hnd.1
                exact ⟨by rw [ha]; exact mapGet_mapInsert_self _ _ _, hb⟩
            | cons c2 t2 =>
                obtain ⟨ha, hb⟩ :=
                  finish_get_notkey
                    (mu.1, mapInsert ["skills", e.1, "effects"] (c :: c2 :: t2) mu.2)
                    rest e.1 hnd.1
                exact ⟨ha, by rw [hb]; exact mapGet_mapInsert_self _ _ _⟩
      · have hne : (["skills", e.1, "effects"] : Path) ≠ ["skills", s, "effects"] :=
          fun hc => he (skillPath_inj.mp hc)
        rw [show mapGet (e :: rest) s = mapGet rest s from by simp [mapGet, he]]
        cases hg : e.2 with
        | nil =>
            obtain ⟨ha, hb⟩ :=
              ih (mu.1, mapInsert ["skills", e.1, "effects"] [] mu.2) hnd.2
            rw [mapGet_mapInsert_ne _ _ _ _ hne] at hb
            exact ⟨ha, hb⟩
        | cons c t =>
            cases t with
            | nil =>
                obtain ⟨ha, hb⟩ :=
                  ih (mapInsert ["skills", e.1, "effects"] c.2 mu.1, mu.2) hnd.2
                rw [mapGet_mapInsert_ne _ _ _ _ hne] at ha
                exact ⟨ha, hb⟩
            | cons c2 t2 =>
                obtain ⟨ha, hb⟩ :=
                  ih (mu.1, mapInsert ["skills", e.1, "effects"] (c :: c2 :: t2) mu.2)
                    hnd.2
                rw [mapGet_mapInsert_ne _ _ _ _ hne] at hb
                exact ⟨ha, hb⟩

theorem riposteFinish_get_ne (mu : Patch × Conflicts) (rip : Group) (p : Path)
    (h : p ≠ ["riposte_skill", "effects"]) :
    mapGet (riposteFinish mu rip).1 p = mapGet mu.1 p ∧
    mapGet (riposteFinish mu rip).2 p = mapGet mu.2 p := by
  have h2 : (["riposte_skill", "effects"] : Path) ≠ p := fun hc => h hc.symm
  cases hg : rip with
  | nil => exact ⟨rfl, mapGet_mapInsert_ne _ _ _ _ h2⟩
  | cons c t =>
      cases t with
      | nil => exact ⟨mapGet_mapInsert_ne _ _ _ _ h2, rfl⟩
      | cons c2 t2 => exact ⟨rfl, mapGet_mapInsert_ne _ _ _ _ h2⟩

theorem riposteFinish_get_rip (mu : Patch × Conflicts) (rip : Group) :
    mapGet (riposteFinish mu rip).1 ["riposte_skill", "effects"] =
      (match rip with
       | [c] => some c.2
       | _ => mapGet mu.1 ["riposte_skill", "effects"]) ∧
    mapGet (riposteFinish mu rip).2 ["riposte_skill", "effects"] =
      (match rip with
       | [_] => mapGet mu.2 ["riposte_skill", "effects"]
       | g => some g) := by
  cases hg : rip with
  | nil => exact ⟨rfl, mapGet_mapInsert_self _ _ _⟩
  | cons c t =>
      cases t with
      | nil => exact ⟨mapGet_mapInsert_self _ _ _, rfl⟩
      | cons c2 t2 => exact ⟨rfl, mapGet_mapInsert_self _ _ _⟩

theorem mergeFold_eq (patches : List ModFileChange) :
    mergeFold patches = (regroup patches).foldl mergeStep ⟨[], [], [], []⟩ := rfl

/-- Characterization of `try_merge_patches` at non-chain paths. -/
theorem tryMerge_get_nonchain (patches : List ModFileChange) (p : Path)
    (hp1 : ¬ isSkillEffectsPath p) (hp2 : ¬ isRiposteEffectsPath p) :
    mapGet (tryMergePatches patches).1 p =
      mergedOf (mapGet (regroup patches) p) none ∧
    mapGet (tryMergePatches patches).2 p =
      unmergedOf (mapGet (regroup patches) p) none := by
  have hrp : p ≠ ["riposte_skill", "effects"] :=
    fun hc => hp2 (by rw [hc]; exact ripPath_isRip)
  have hns : ∀ s, p ≠ ["skills", s, "effects"] :=
    fun s hc => hp1 (by rw [hc]; exact skillPath_isSkill s)
  rw [tryMergePatches_eq]
  obtain ⟨hr1, hr2⟩ := riposteFinish_get_ne _ _ _ hrp
  rw [hr1, hr2]
  obtain ⟨hf1, hf2⟩ := finish_get_other _ _ _ hns
  rw [hf1, hf2]
  constructor
  · rw [mergeFold_eq,
      foldMerge_merged_get _ _ _ (regroup_keys_nodup patches) hp1 hp2]
    rfl
  · rw [mergeFold_eq,
      foldMerge_unmerged_get _ _ _ (regroup_keys_nodup patches) hp1 hp2]
    rfl

/-- Characterization of `try_merge_patches` at a skill chain's collapsed
path `["skills", s, "effects"]`. -/
theorem tryMerge_get_skillpath (patches : List ModFileChange) (s : String) :
    mapGet (tryMergePatches patches).1 ["skills", s, "effects"] =
      (match collectSkill (regroup patches) s with
       | [c] => some c.2
       | _ => none) ∧
    mapGet (tryMergePatches patches).2 ["skills", s, "effects"] =
      (match collectSkill (regroup patches) s with
       | [] => none
       | [_] => none
       | g => some g) := by
  have hrp : (["skills", s, "effects"] : Path) ≠ ["riposte_skill", "effects"] :=
    fun hc => ripPath_ne_skillPath s hc.symm
  rw [tryMergePatches_eq]
  obtain ⟨hr1, hr2⟩ := riposteFinish_get_ne _ _ _ hrp
  rw [hr1, hr2]
  have hnd : ((mergeFold patches).skillEffects.map Prod.fst).Nodup := by
    rw [mergeFold_eq]
    exact foldMerge_sfx_nodup _ _ (by simp)
  obtain ⟨hf1, hf2⟩ := finish_get_skill _ _ s hnd
  rw [hf1, hf2]
  have hsfx : mapGet (mergeFold patches).skillEffects s =
      combineG none (collectSkill (regroup patches) s) := by
    rw [mergeFold_eq, foldMerge_sfx_get _ _ _ (regroup_groups_ne_nil patches)]
    rfl
  have hm : mapGet (mergeFold patches).merged ["skills", s, "effects"] = none := by
    rw [mergeFold_eq, foldMerge_merged_chain _ _ _ (Or.inl (skillPath_isSkill s))]
    rfl
  have hu : mapGet (mergeFold patches).unmerged ["skills", s, "effects"] = none := by
    rw [mergeFold_eq, foldMerge_unmerged_chain _ _ _ (Or.inl (skillPath_isSkill s))]
    rfl
  rw [hsfx, hm, hu]
  cases hg : collectSkill (regroup patches) s with
  | nil => exact ⟨rfl, rfl⟩
  | cons c t =>
      rw [show combineG none (c :: t) = some (c :: t) from by simp [combineG]]
      cases t with
      | nil => exact ⟨rfl, rfl⟩
      | cons c2 t2 => exact ⟨rfl, rfl⟩

/-- Characterization of `try_merge_patches` at the riposte chain's
collapsed path: it is always written, even when nothing was collected. -/
theorem tryMerge_get_rip (patches : List ModFileChange) :
    mapGet (tryMergePatches patches).1 ["riposte_skill", "effects"] =
      (match collectRip (regroup patches) with
       | [c] => some c.2
       | _ => none) ∧
    mapGet (tryMergePatches patches).2 ["riposte_skill", "effects"] =
      (match collectRip (regroup patches) with
       | [_] => none
       | g => some g) := by
  rw [tryMergePatches_eq]
  have hrip : (mergeFold patches).riposteEffects = collectRip (regroup patches) := by
    rw [mergeFold_eq, foldMerge_rip_eq]
    rfl
  rw [hrip]
  obtain ⟨hr1, hr2⟩ := riposteFinish_get_rip _ _
  rw [hr1, hr2]
  obtain ⟨hf1, hf2⟩ :=
    finish_get_other
      (( mergeFold patches).merged, (mergeFold patches).unmerged)
      (mergeFold patches).skillEffects ["riposte_skill", "effects"]
      (fun t => ripPath_ne_skillPath t)
  rw [hf1, hf2]
  have hm : mapGet (mergeFold patches).merged ["riposte_skill", "effects"] = none := by
    rw [mergeFold_eq, foldMerge_merged_chain _ _ _ (Or.inr ripPath_isRip)]
    rfl
  have hu : mapGet (mergeFold patches).unmerged ["riposte_skill", "effects"] = none := by
    rw [mergeFold_eq, foldMerge_unmerged_chain _ _ _ (Or.inr ripPath_isRip)]
    rfl
  rw [hm, hu]
  exact ⟨rfl, rfl⟩

/-- Chain-shaped paths other than the collapsed chain keys never appear in
either output. -/
theorem tryMerge_get_otherchain (patches : List ModFileChange) (p : Path)
    (hchain : isSkillEffectsPath p ∨ isRiposteEffectsPath p)
    (hns : ∀ s, p ≠ ["skills", s, "effects"])
    (hnr : p ≠ ["riposte_skill", "effects"]) :
    mapGet (tryMergePatches patches).1 p = none ∧
    mapGet (tryMergePatches patches).2 p = none := by
  rw [tryMergePatches_eq]
  obtain ⟨hr1, hr2⟩ := riposteFinish_get_ne _ _ _ hnr
  rw [hr1, hr2]
  obtain ⟨hf1, hf2⟩ := finish_get_other _ _ _ hns
  rw [hf1, hf2]
  constructor
  · rw [mergeFold_eq, foldMerge_merged_chain _ _ _ hchain]
    rfl
  · rw [mergeFold_eq, foldMerge_unmerged_chain _ _ _ hchain]
    rfl

theorem collectRip_eq_nil (L : List (Path × Group))
    (h : ∀ pg ∈ L, ¬ isRiposteEffectsPath pg.1) : collectRip L = [] := by
  induction L with
  | nil => rfl
  | cons pg rest ih =>
      rw [collectRip,
        if_neg (fun hc => h pg (List.mem_cons_self _ _) hc.2),
        ih (fun e he => h e (List.mem_cons_of_mem _ he))]
      rfl

/-- Every group key produced by the regrouping loop is the path of some
submitted change. -/
theorem regroup_mem_path (patches : List ModFileChange) {pg : Path × Group}
    (hmem : pg ∈ regroup patches) :
    ∃ mc ∈ patches, ∃ pc ∈ mc.2, pc.1 = pg.1 := by
  have hget := mapGet_of_mem_nodup (regroup_keys_nodup patches) hmem
  rw [regroup_get] at hget
  have hne : entriesFor patches pg.1 ≠ [] := by
    intro hnil
    rw [hnil] at hget
    simp [combineG] at hget
  cases hg : entriesFor patches pg.1 with
  | nil => exact absurd hg hne
  | cons e t =>
      have he : e ∈ entriesFor patches pg.1 := by
        rw [hg]
        exact List.mem_cons_self _ _
      unfold entriesFor at he
      rcases List.mem_bind.mp he with ⟨mc, hmc, hin⟩
      rcases List.mem_filterMap.mp hin with ⟨pc, hpc, hcond⟩
      by_cases hp : pc.1 = pg.1
      · exact ⟨mc, hmc, pc, hpc, hp⟩
      · rw [if_neg hp] at hcond
        cases hcond

/-! ## The claims about `try_merge_patches` -/

/-- C1: if exactly one (source, change) entry targets a non-chain path,
that change appears unaltered in the merged patch and the path is absent
from the conflict set. -/
theorem c1_single_source_acceptance (patches : List ModFileChange) (p : Path)
    (m : ModName) (c : ItemChange)
    (hp1 : ¬ isSkillEffectsPath p) (hp2 : ¬ isRiposteEffectsPath p)
    (h : entriesFor patches p = [(m, c)]) :
    mapGet (tryMergePatches patches).1 p = some c ∧
    mapGet (tryMergePatches patches).2 p = none := by
  obtain ⟨h1, h2⟩ := tryMerge_get_nonchain patches p hp1 hp2
  rw [h1, h2, regroup_get, h]
  exact ⟨rfl, rfl⟩

theorem c1_single_source_acceptance_witness :
    (¬ isSkillEffectsPath ["resistances", "stun"]) ∧
    (¬ isRiposteEffectsPath ["resistances", "stun"]) ∧
    entriesFor [("modA", [(["resistances", "stun"],
        ItemChange.set (GameDataValue.f32 5))])] ["resistances", "stun"] =
      [("modA", ItemChange.set (GameDataValue.f32 5))] ∧
    (mapGet (tryMergePatches [("modA", [(["resistances", "stun"],
        ItemChange.set (GameDataValue.f32 5))])]).1 ["resistances", "stun"] =
        some (ItemChange.set (GameDataValue.f32 5)) ∧
      mapGet (tryMergePatches [("modA", [(["resistances", "stun"],
        ItemChange.set (GameDataValue.f32 5))])]).2 ["resistances", "stun"] = none) :=
  ⟨by decide, by decide, by decide,
    c1_single_source_acceptance _ _ "modA" (ItemChange.set (GameDataValue.f32 5))
      (by decide) (by decide) (by decide)⟩

/-- C2: if two or more (source, change) entries target a non-chain path —
even identical ones — the conflict set maps that path to exactly those
entries in submission order, and the merged patch does not contain it. -/
theorem c2_multi_source_conflict (patches : List ModFileChange) (p : Path)
    (hp1 : ¬ isSkillEffectsPath p) (hp2 : ¬ isRiposteEffectsPath p)
    (h2 : 2 ≤ (entriesFor patches p).length) :
    mapGet (tryMergePatches patches).2 p = some (entriesFor patches p) ∧
    mapGet (tryMergePatches patches).1 p = none := by
  obtain ⟨hm, hu⟩ := tryMerge_get_nonchain patches p hp1 hp2
  rw [hm, hu, regroup_get]
  cases hg : entriesFor patches p with
  | nil => rw [hg] at h2; simp at h2
  | cons c1 t =>
      cases t with
      | nil => rw [hg] at h2; simp at h2
      | cons c2 t2 => exact ⟨rfl, rfl⟩

theorem c2_multi_source_conflict_witness :
    (¬ isSkillEffectsPath ["resistances", "stun"]) ∧
    (¬ isRiposteEffectsPath ["resistances", "stun"]) ∧
    2 ≤ (entriesFor
        [("modA", [(["resistances", "stun"], ItemChange.set (GameDataValue.f32 5))]),
         ("modB", [(["resistances", "stun"], ItemChange.set (GameDataValue.f32 5))])]
        ["resistances", "stun"]).length ∧
    (mapGet (tryMergePatches
        [("modA", [(["resistances", "stun"], ItemChange.set (GameDataValue.f32 5))]),
         ("modB", [(["resistances", "stun"], ItemChange.set (GameDataValue.f32 5))])]).2
        ["resistances", "stun"] =
      some (entriesFor
        [("modA", [(["resistances", "stun"], ItemChange.set (GameDataValue.f32 5))]),
         ("modB", [(["resistances", "stun"], ItemChange.set (GameDataValue.f32 5))])]
        ["resistances", "stun"]) ∧
      mapGet (tryMergePatches
        [("modA", [(["resistances", "stun"], ItemChange.set (GameDataValue.f32 5))]),
         ("modB", [(["resistances", "stun"], ItemChange.set (GameDataValue.f32 5))])]).1
        ["resistances", "stun"] = none) :=
  ⟨by decide, by decide, by decide,
    c2_multi_source_conflict _ _ (by decide) (by decide) (by decide)⟩

/-- C3: for every input and every path, the merged patch and the conflict
set returned by `try_merge_patches` are disjoint in paths. -/
theorem c3_merge_disjointness (patches : List ModFileChange) (p : Path) :
    mapGet (tryMergePatches patches).1 p = none ∨
    mapGet (tryMergePatches patches).2 p = none := by
  by_cases hp1 : isSkillEffectsPath p
  · obtain ⟨a, rest, rfl⟩ := skill_shape_decomp hp1
    cases rest with
    | nil =>
        obtain ⟨hm, hu⟩ := tryMerge_get_skillpath patches a
        rw [hm, hu]
        cases hg : collectSkill (regroup patches) a with
        | nil => exact Or.inl rfl
        | cons c t =>
            cases t with
            | nil => exact Or.inr rfl
            | cons c2 t2 => exact Or.inl rfl
    | cons x xs =>
        have hns : ∀ s,
            ("skills" :: a :: "effects" :: x :: xs : Path) ≠
              ["skills", s, "effects"] := by
          intro s hc
          simp at hc
        have hnr : ("skills" :: a :: "effects" :: x :: xs : Path) ≠
            ["riposte_skill", "effects"] := by
          simp
        obtain ⟨hm, _⟩ :=
          tryMerge_get_otherchain patches _ (Or.inl hp1) hns hnr
        exact Or.inl hm
  · by_cases hp2 : isRiposteEffectsPath p
    · obtain ⟨rest, rfl⟩ := rip_shape_decomp hp2
      cases rest with
      | nil =>
          obtain ⟨hm, hu⟩ := tryMerge_get_rip patches
          rw [hm, hu]
          cases hg : collectRip (regroup patches) with
          | nil => exact Or.inl rfl
          | cons c t =>
              cases t with
              | nil => exact Or.inr rfl
              | cons c2 t2 => exact Or.inl rfl
      | cons x xs =>
          have hns : ∀ s,
              ("riposte_skill" :: "effects" :: x :: xs : Path) ≠
                ["skills", s, "effects"] := by
            intro s hc
            simp at hc
          have hnr : ("riposte_skill" :: "effects" :: x :: xs : Path) ≠
              ["riposte_skill", "effects"] := by
            simp
          obtain ⟨hm, _⟩ :=
            tryMerge_get_otherchain patches _ (Or.inr hp2) hns hnr
          exact Or.inl hm
    · obtain ⟨hm, hu⟩ := tryMerge_get_nonchain patches p hp1 hp2
      rw [hm, hu]
      cases hg : mapGet (regroup patches) p with
      | none => exact Or.inl rfl
      | some g =>
          cases g with
          | nil => exact Or.inl rfl
          | cons c t =>
              cases t with
              | nil => exact Or.inr rfl
              | cons c2 t2 => exact Or.inl rfl

/-- C5 (counterexample): one single source makes two edits to the same
skill chain; the claim says the source's edits merge in, but the code
classifies by edit count, so the whole set lands in the conflict set and
the merged patch is empty. -/
def c5patches : List ModFileChange :=
  [("modA", [(["skills", "s1", "effects", "A"],
      ItemChange.set (GameDataValue.string "X")),
    (["skills", "s1", "effects", "X"], ItemChange.removed)])]

theorem c5_single_source_chain_conflicts :
    (tryMergePatches c5patches).1 = [] ∧
    mapGet (tryMergePatches c5patches).2 ["skills", "s1", "effects"] =
      some [("modA", ItemChange.set (GameDataValue.string "X")),
        ("modA", ItemChange.removed)] := by
  exact ⟨by decide, by decide⟩

/-- C5 (amended): chain edits are collected per chain key; a collection
with exactly one edit merges as one entry keyed by the collapsed chain
path (the original leaf path is not kept), and any other collection —
even one coming entirely from a single source — becomes a single
conflict entry at that collapsed path.  For the riposte chain the entry
is written even when the collection is empty. -/
theorem c5_chain_merge_by_edit_count (patches : List ModFileChange) (s : String) :
    (mapGet (tryMergePatches patches).1 ["skills", s, "effects"] =
      (match collectSkill (regroup patches) s with
       | [c] => some c.2
       | _ => none) ∧
    mapGet (tryMergePatches patches).2 ["skills", s, "effects"] =
      (match collectSkill (regroup patches) s with
       | [] => none
       | [_] => none
       | g => some g)) ∧
    (mapGet (tryMergePatches patches).1 ["riposte_skill", "effects"] =
      (match collectRip (regroup patches) with
       | [c] => some c.2
       | _ => none) ∧
    mapGet (tryMergePatches patches).2 ["riposte_skill", "effects"] =
      (match collectRip (regroup patches) with
       | [_] => none
       | g => some g)) :=
  ⟨tryMerge_get_skillpath patches s, tryMerge_get_rip patches⟩

/-- C10: when no submitted change touches the riposte chain, the conflict
set still contains `["riposte_skill","effects"]`, mapped to the empty
list of contributions — the conflict set is never empty. -/
theorem c10_riposte_entry_always_present (patches : List ModFileChange)
    (h : ∀ mc ∈ patches, ∀ pc ∈ mc.2, ¬ isRiposteEffectsPath pc.1) :
    mapGet (tryMergePatches patches).2 ["riposte_skill", "effects"] = some [] ∧
    (tryMergePatches patches).2 ≠ [] := by
  have hL : ∀ pg ∈ regroup patches, ¬ isRiposteEffectsPath pg.1 := by
    intro pg hmem hrip
    obtain ⟨mc, hmc, pc, hpc, hp⟩ := regroup_mem_path patches hmem
    exact h mc hmc pc hpc (by rw [hp]; exact hrip)
  have hc : collectRip (regroup patches) = [] := collectRip_eq_nil _ hL
  obtain ⟨_, hu⟩ := tryMerge_get_rip patches
  rw [hc] at hu
  refine ⟨hu, ?_⟩
  intro hnil
  rw [hnil] at hu
  simp [mapGet] at hu

theorem c10_riposte_entry_always_present_witness :
    (∀ mc ∈ ([("modA", [(["resistances", "stun"],
        ItemChange.set (GameDataValue.f32 5))])] : List ModFileChange),
      ∀ pc ∈ mc.2, ¬ isRiposteEffectsPath pc.1) ∧
    (mapGet (tryMergePatches [("modA", [(["resistances", "stun"],
        ItemChange.set (GameDataValue.f32 5))])]).2 ["riposte_skill", "effects"] =
        some [] ∧
      (tryMergePatches [("modA", [(["resistances", "stun"],
        ItemChange.set (GameDataValue.f32 5))])]).2 ≠ []) :=
  ⟨by decide, c10_riposte_entry_always_present _ (by decide)⟩

end DDMB
